import Mathlib

/-!
Verification development for the accelerated Collatz-family ABS1/NON-ABS1
checker (`collatz_o_operator.py`).

The Python functions are embedded as Lean definitions over `Int` and
`List Int`.  Python integers are arbitrary precision, so `Int` is the exact
model.  Python `//` and `%` with a positive divisor are floor division and
nonnegative remainder, which coincide with Lean's `Int` `/` (Euclidean
division) and `%` for positive divisors; every division performed by the
code is by a positive power of two, so the embedding is exact.
-/

namespace CollatzO

/-- Fuel-driven count of the factors of two of `n`; with `fuel ≥ n` this is
the 2-adic valuation of `n` (and `0` for `n = 0`).  The fuel only makes the
recursion structural. -/
def v2NatAux : Nat → Nat → Nat
  | 0, _ => 0
  | (fuel+1), n => if n % 2 = 0 ∧ n ≠ 0 then v2NatAux fuel (n / 2) + 1 else 0

/-- `v2(x)` on naturals: the Python source computes
`(x & -x).bit_length() - 1 if x else 0`, i.e. the 2-adic valuation of `x`
for `x ≠ 0` and `0` for `x = 0`.  We embed it as the equivalent count of
factors of two (`n` itself is always enough fuel). -/
def v2Nat (n : Nat) : Nat := v2NatAux n n

/-- `v2(x)`: the Python source first takes `abs(x)`. -/
def v2 (x : Int) : Nat := v2Nat x.natAbs

/-- `O_+(m) = (3m+1)/2^{v2(3m+1)}` for odd `m`; extends `O_+(0) = +1`. -/
def O_plus (m : Int) : Int :=
  if m = 0 then 1 else (3*m + 1) / ((2:Int) ^ v2 (3*m + 1))

/-- `O_-(m) = (3m-1)/2^{v2(3m-1)}` for odd `m`; extends `O_-(0) = -1`. -/
def O_minus (m : Int) : Int :=
  if m = 0 then -1 else (3*m - 1) / ((2:Int) ^ v2 (3*m - 1))

/-- `normalize_initial`: collapse the initial even phase; for Bridge flip the
sign when the number of halvings is odd (Python `k & 1` is `k % 2 = 1`). -/
def normalize_initial (n0 : Int) (even_type : String) : Int :=
  if n0 = 0 then 1
  else if n0 % 2 = 0 then
    let k := v2 n0
    let n := n0 / ((2:Int) ^ k)
    if even_type = "B" ∧ k % 2 = 1 then -n else n
  else n0

/-- `T_step_accel`: one accelerated odd-to-odd step with Bridge's sign
correction. -/
def T_step_accel (n : Int) (even_type : String) (odd_sign : Int) : Int :=
  let nxt := if odd_sign = 1 then O_plus n else O_minus n
  if even_type = "W" then nxt
  else
    let k := v2 (3*n + (if odd_sign = 1 then 1 else -1))
    if k % 2 = 1 then -nxt else nxt

/-- `is_a1_stable_domain`: `B±1` always stable, `W+1` only for the `+1`
fixed point, `W-1` only for `-1`. -/
def is_a1_stable_domain (type_tag : String) (fixed_sign : Int) : Bool :=
  if type_tag = "B+1" ∨ type_tag = "B-1" then true
  else if type_tag = "W+1" then fixed_sign == 1
  else if type_tag = "W-1" then fixed_sign == -1
  else false

/-- `is_abs1_loop_from_cycle`: length-1 cycle on `±1` gated by domain
stability, with the raw-form `[1,4,2,1]` fallback. -/
def is_abs1_loop_from_cycle (cycle : List Int) (type_tag : String) : Bool :=
  if cycle.length = 1 ∧ (cycle.headD 0 = 1 ∨ cycle.headD 0 = -1) then
    is_a1_stable_domain type_tag (if cycle.headD 0 = 1 then 1 else -1)
  else cycle.map (fun x => |x|) == [1, 4, 2, 1]

/-- `is_known_small_loop`: the trivial loops excluded from the unknown-cycle
report.  Python tests `len(abs_cyc) == 2 and set(abs_cyc) == {1, 2}`, which
holds exactly for the two lists `[1,2]` and `[2,1]`. -/
def is_known_small_loop (cycle : List Int) : Bool :=
  if cycle.length = 1 ∧ (cycle.headD 0 = 1 ∨ cycle.headD 0 = -1) then true
  else
    let abs_cyc := cycle.map (fun x => |x|)
    if abs_cyc = [1, 2] ∨ abs_cyc = [2, 1] then true
    else abs_cyc == [1, 4, 2, 1]

/-- The comparison key the canonicalizer attaches to a rotation:
`tuple(abs(x) for x in rot)` when `by_abs`, else the rotation itself. -/
def cyc_key (by_abs : Bool) (rot : List Int) : List Int :=
  if by_abs then rot.map (fun x => |x|) else rot

/-- The candidate key list of `canonical_cycle`: one key per rotation
`cyc[s:] + cyc[:s]`. -/
def rot_candidates (cyc : List Int) (by_abs : Bool) : List (List Int) :=
  (List.range cyc.length).map (fun s => cyc_key by_abs (cyc.drop s ++ cyc.take s))

/-- `canonical_cycle`: the Python source builds the pair `(key, rot)` for
every rotation `cyc[s:] + cyc[:s]`, sorts the pairs stably by key (Python
tuple order, which on `List Int` is the lexicographic order with a proper
prefix below its extensions, i.e. exactly the `LinearOrder (List Int)`
order), and returns `candidates[0][0]` when `by_abs` and
`candidates[0][1]` otherwise.  When `by_abs` is false the key IS the
rotation, so in both cases the returned fingerprint is the head key of the
stably sorted key list.  `List.insertionSort` is a stable sort, modelling
Python's stable `list.sort`. -/
def canonical_cycle (cyc : List Int) (by_abs : Bool) : List Int :=
  if cyc.length = 0 then []
  else ((rot_candidates cyc by_abs).insertionSort (· ≤ ·)).headD []

/-- Result record of one classification walk.  `lab`, `ex`, `hit1`, `fp`
and `ucyc` are exactly the five values the Python `worker` returns
(`unknown_fp`, `unknown_cyc`).  `cycle` (the closed cycle found, if any)
and `seq` (the internal visited log) are internal values of the walk,
exposed so that the specification can speak about them. -/
structure WResult where
  lab : String
  ex : Option (Int × List Int)
  hit1 : Bool
  fp : Option (List Int)
  ucyc : Option (List Int)
  cycle : Option (List Int)
  seq : List Int
  deriving Repr, DecidableEq

/-- The advance performed at the bottom of the walk loop: Python
re-normalizes when the current value is unexpectedly even (the defensive
safeguard) and otherwise applies `T_step_accel`. -/
def walk_next (n : Int) (even_type : String) (odd_sign : Int) : Int :=
  if n % 2 = 0 then normalize_initial n even_type else T_step_accel n even_type odd_sign

/-- The body of the cycle-closure branch of the walk loop (`if n in seen:`):
recover the earlier index of `n`, cut the pure cycle `seq[i:]`, classify it,
and build the unknown-cycle fingerprint and the example record. -/
def closeResult (n0 : Int) (type_tag : String)
    (want_example report_cycles fp_abs : Bool)
    (n : Int) (seq : List Int) (hit1 : Bool) : WResult :=
  let i := List.indexOf n seq
  let cycle := seq.drop i
  let lab := if is_abs1_loop_from_cycle cycle type_tag then "ABS1" else "NON-ABS1"
  let fp : Option (List Int) :=
    if report_cycles && (lab == "NON-ABS1") && !(is_known_small_loop cycle)
    then some (canonical_cycle cycle fp_abs) else none
  let ucyc : Option (List Int) :=
    if report_cycles && (lab == "NON-ABS1") && !(is_known_small_loop cycle)
    then some cycle else none
  let ex : Option (Int × List Int) :=
    if want_example && (lab == "ABS1" || lab == "NON-ABS1")
    then some (n0, cycle) else none
  ⟨lab, ex, hit1, fp, ucyc, some cycle, seq⟩

/-- The `while steps < cap` loop of `worker`; `fuel` is `cap - steps`.
`seen` is modelled by membership in `seq` together with `List.indexOf`:
the dict maps each value to the index at which it was appended, and values
are appended exactly when first seen, so `seen[n]` is the index of the
first occurrence of `n` in `seq`. -/
def workerLoop (n0 : Int) (type_tag even_type : String) (odd_sign : Int)
    (want_example report_cycles fp_abs : Bool) :
    Nat → Int → List Int → Bool → WResult
  | 0, _, seq, hit1 => ⟨"CAP", none, hit1, none, none, none, seq⟩
  | (fuel+1), n, seq, hit1 =>
    let hit1 := if n = 1 then true else hit1
    if n ∈ seq then
      closeResult n0 type_tag want_example report_cycles fp_abs n seq hit1
    else
      workerLoop n0 type_tag even_type odd_sign want_example report_cycles fp_abs
        fuel (walk_next n even_type odd_sign) (seq ++ [n]) hit1

/-- `worker`: normalize the start and run the walk loop with empty state. -/
def worker (n0 : Int) (type_tag even_type : String) (odd_sign : Int) (cap : Nat)
    (want_example report_cycles fp_abs : Bool) : WResult :=
  workerLoop n0 type_tag even_type odd_sign want_example report_cycles fp_abs
    cap (normalize_initial n0 even_type) [] false

/-- The walk loop with the defensive even-value re-normalization removed:
the advance is always `T_step_accel`.  Used to state that the safeguard
branch is unreachable. -/
def workerLoopNG (n0 : Int) (type_tag even_type : String) (odd_sign : Int)
    (want_example report_cycles fp_abs : Bool) :
    Nat → Int → List Int → Bool → WResult
  | 0, _, seq, hit1 => ⟨"CAP", none, hit1, none, none, none, seq⟩
  | (fuel+1), n, seq, hit1 =>
    let hit1 := if n = 1 then true else hit1
    if n ∈ seq then
      closeResult n0 type_tag want_example report_cycles fp_abs n seq hit1
    else
      workerLoopNG n0 type_tag even_type odd_sign want_example report_cycles fp_abs
        fuel (T_step_accel n even_type odd_sign) (seq ++ [n]) hit1

/-- `worker` with the safeguard-free loop. -/
def workerNG (n0 : Int) (type_tag even_type : String) (odd_sign : Int) (cap : Nat)
    (want_example report_cycles fp_abs : Bool) : WResult :=
  workerLoopNG n0 type_tag even_type odd_sign want_example report_cycles fp_abs
    cap (normalize_initial n0 even_type) [] false

/-- Source configuration constant `MAX_SAMPLES_PER_CYCLE`. -/
def MAX_SAMPLES_PER_CYCLE : Nat := 3

/-- One entry of the unknown-cycle registry
(`{"count": _, "len": _, "samples": _, "cycle": _}`). -/
structure CycleInfo where
  count : Nat
  len : Nat
  samples : List Int
  cycle : List Int
  deriving Repr, DecidableEq

/-- `add_unknown_cycle` from `run_sweep`: the registry dict is modelled as
an association list with unique keys (`List.lookup` is dict access; the
in-place entry mutation is modelled by rewriting the pair carrying key
`fp`). -/
def add_unknown_cycle (registry : List (List Int × CycleInfo))
    (fp : Option (List Int)) (starter : Option Int) (cyc : Option (List Int)) :
    List (List Int × CycleInfo) :=
  match fp, cyc with
  | some f, some c =>
    (match registry.lookup f with
     | none =>
        registry ++ [(f, ⟨1, c.length,
          (match starter with | some s => [s] | none => []), c⟩)]
     | some info =>
        let newInfo : CycleInfo :=
          ⟨info.count + 1, info.len,
           (match starter with
            | some s =>
                if info.samples.length < MAX_SAMPLES_PER_CYCLE
                then info.samples ++ [s] else info.samples
            | none => info.samples),
           info.cycle⟩
        registry.map (fun p => if p.1 = f then (f, newInfo) else p))
  | _, _ => registry

/-- The registry update performed in the parallel branch of `run_sweep`
(lines 247-249): `starter = ex[0] if ex else None`. -/
def registry_update_par (report_cycles : Bool) (registry : List (List Int × CycleInfo))
    (ex : Option (Int × List Int)) (fp : Option (List Int)) (cyc : Option (List Int)) :
    List (List Int × CycleInfo) :=
  if report_cycles then add_unknown_cycle registry fp (ex.map Prod.fst) cyc
  else registry

/-- The registry update performed in the sequential branch of `run_sweep`
(lines 259-261): `starter = ex[0] if ex else n0`, always a concrete value. -/
def registry_update_sequential (report_cycles : Bool) (registry : List (List Int × CycleInfo))
    (n0 : Int) (ex : Option (Int × List Int)) (fp : Option (List Int))
    (cyc : Option (List Int)) : List (List Int × CycleInfo) :=
  if report_cycles then
    add_unknown_cycle registry fp
      (some (match ex with | some e => e.1 | none => n0)) cyc
  else registry

/-! ### Arithmetic: the accelerated step maps odd values to odd values -/

lemma v2NatAux_spec : ∀ (fuel n : Nat), n ≠ 0 → n ≤ fuel →
    (n / 2 ^ v2NatAux fuel n) % 2 = 1 ∧ 2 ^ v2NatAux fuel n * (n / 2 ^ v2NatAux fuel n) = n := by
  intro fuel
  induction fuel with
  | zero => intro n h hn; omega
  | succ fuel ih =>
    intro n hn hle
    by_cases he : n % 2 = 0
    · have hrec : v2NatAux (fuel+1) n = v2NatAux fuel (n / 2) + 1 := by
        simp only [v2NatAux]; rw [if_pos ⟨he, hn⟩]
      have h2 : n / 2 ≠ 0 := by omega
      have h3 : n / 2 ≤ fuel := by omega
      obtain ⟨ho, hm⟩ := ih (n / 2) h2 h3
      have hdiv : n / 2 ^ (v2NatAux fuel (n / 2) + 1)
          = (n / 2) / 2 ^ v2NatAux fuel (n / 2) := by
        rw [pow_succ, mul_comm, ← Nat.div_div_eq_div_mul]
      rw [hrec, hdiv]
      refine ⟨ho, ?_⟩
      have h4 : 2 * (n / 2) = n := by omega
      calc 2 ^ (v2NatAux fuel (n / 2) + 1) * (n / 2 / 2 ^ v2NatAux fuel (n / 2))
          = 2 * (2 ^ v2NatAux fuel (n / 2) * (n / 2 / 2 ^ v2NatAux fuel (n / 2))) := by ring
        _ = 2 * (n / 2) := by rw [hm]
        _ = n := h4
    · have hrec : v2NatAux (fuel+1) n = 0 := by
        simp only [v2NatAux]; rw [if_neg (by tauto)]
      rw [hrec]
      simp only [pow_zero, Nat.div_one, one_mul]
      exact ⟨by omega, trivial⟩

lemma v2Nat_spec (n : Nat) (h : n ≠ 0) :
    (n / 2 ^ v2Nat n) % 2 = 1 ∧ 2 ^ v2Nat n * (n / 2 ^ v2Nat n) = n :=
  v2NatAux_spec n n h le_rfl

/-- Over `Int`: stripping `2 ^ v2 x` from a nonzero `x` is an exact division
and leaves an odd quotient. -/
lemma v2_int_spec (x : Int) (h : x ≠ 0) :
    (x / (2:Int) ^ v2 x) % 2 = 1 ∧ (2:Int) ^ v2 x * (x / (2:Int) ^ v2 x) = x := by
  have hna : x.natAbs ≠ 0 := Int.natAbs_ne_zero.mpr h
  obtain ⟨hoddN, hmulN⟩ := v2Nat_spec x.natAbs hna
  have hdvdN : 2 ^ v2Nat x.natAbs ∣ x.natAbs := ⟨_, hmulN.symm⟩
  have hdvd : ((2:Int) ^ v2 x) ∣ x := by
    rw [v2]
    refine Int.dvd_natAbs.mp ?_
    have h2 := Int.natCast_dvd_natCast.mpr hdvdN
    rw [Nat.cast_pow, Nat.cast_ofNat] at h2
    exact h2
  have hexact : (2:Int) ^ v2 x * (x / (2:Int) ^ v2 x) = x := Int.mul_ediv_cancel' hdvd
  refine ⟨?_, hexact⟩
  have habs : x.natAbs = 2 ^ v2 x * (x / (2:Int) ^ v2 x).natAbs := by
    have h1 := congrArg Int.natAbs hexact
    rw [Int.natAbs_mul, Int.natAbs_pow] at h1
    simpa using h1.symm
  have hq : (x / (2:Int) ^ v2 x).natAbs = x.natAbs / 2 ^ v2 x := by
    rw [habs, Nat.mul_div_cancel_left _ (Nat.pos_pow_of_pos _ (by norm_num))]
  have hoddQ : Odd (x / (2:Int) ^ v2 x) := by
    rw [← Int.natAbs_odd, Nat.odd_iff, hq]
    exact hoddN
  exact Int.odd_iff.mp hoddQ

lemma O_plus_odd (m : Int) (h : m % 2 = 1) : O_plus m % 2 = 1 := by
  have hm : m ≠ 0 := by omega
  have hx : 3 * m + 1 ≠ 0 := by omega
  rw [O_plus, if_neg hm]
  exact (v2_int_spec _ hx).1

lemma O_minus_odd (m : Int) (h : m % 2 = 1) : O_minus m % 2 = 1 := by
  have hm : m ≠ 0 := by omega
  have hx : 3 * m - 1 ≠ 0 := by omega
  rw [O_minus, if_neg hm]
  exact (v2_int_spec _ hx).1

lemma T_step_accel_odd (n : Int) (et : String) (os : Int) (h : n % 2 = 1) :
    T_step_accel n et os % 2 = 1 := by
  simp only [T_step_accel]
  split_ifs <;>
    first
      | exact O_plus_odd n h
      | exact O_minus_odd n h
      | · have := O_plus_odd n h; omega
      | · have := O_minus_odd n h; omega

lemma normalize_initial_odd (n0 : Int) (et : String) :
    normalize_initial n0 et % 2 = 1 := by
  simp only [normalize_initial]
  split_ifs with h0 he hb
  · omega
  · have := (v2_int_spec n0 h0).1; omega
  · exact (v2_int_spec n0 h0).1
  · omega

lemma walk_next_odd_eq (n : Int) (et : String) (os : Int) (h : n % 2 = 1) :
    walk_next n et os = T_step_accel n et os := by
  rw [walk_next, if_neg (by omega)]

/-! ### Canonicalizer: minimum characterization, rotation and mirror laws -/

lemma cyc_key_false (rot : List Int) : cyc_key false rot = rot := rfl

lemma mem_rot_candidates_iff {cyc : List Int} {b : Bool} {x : List Int} :
    x ∈ rot_candidates cyc b ↔ ∃ s, s < cyc.length ∧ x = cyc_key b (cyc.rotate s) := by
  simp only [rot_candidates, List.mem_map, List.mem_range]
  constructor
  · rintro ⟨s, hs, rfl⟩
    exact ⟨s, hs, by rw [List.rotate_eq_drop_append_take (le_of_lt hs)]⟩
  · rintro ⟨s, hs, rfl⟩
    exact ⟨s, hs, by rw [List.rotate_eq_drop_append_take (le_of_lt hs)]⟩

lemma cyc_key_rotate_mem (cyc : List Int) (b : Bool) (h : cyc ≠ []) (s : Nat) :
    cyc_key b (cyc.rotate s) ∈ rot_candidates cyc b := by
  rw [mem_rot_candidates_iff]
  exact ⟨s % cyc.length, Nat.mod_lt _ (List.length_pos.mpr h),
    by rw [List.rotate_mod]⟩

/-- The fingerprint is a member of the candidate key list and a lower bound
of it: it is the head of the stably sorted candidate list. -/
lemma canonical_cycle_spec (cyc : List Int) (b : Bool) (h : cyc ≠ []) :
    canonical_cycle cyc b ∈ rot_candidates cyc b ∧
      ∀ x ∈ rot_candidates cyc b, canonical_cycle cyc b ≤ x := by
  have hlen : ¬ cyc.length = 0 := by simpa [List.length_eq_zero] using h
  rw [canonical_cycle, if_neg hlen]
  have hperm := List.perm_insertionSort (α := List Int) (· ≤ ·) (rot_candidates cyc b)
  have hsorted := List.sorted_insertionSort (α := List Int) (· ≤ ·) (rot_candidates cyc b)
  cases hs : (rot_candidates cyc b).insertionSort (· ≤ ·) with
  | nil =>
    exfalso
    rw [hs] at hperm
    have h0 : rot_candidates cyc b = [] := hperm.symm.eq_nil
    have : (rot_candidates cyc b).length = cyc.length := by
      simp [rot_candidates]
    rw [h0] at this
    exact hlen this.symm
  | cons hd tl =>
    simp only [List.headD_cons]
    constructor
    · have : hd ∈ (rot_candidates cyc b).insertionSort (· ≤ ·) := by
        rw [hs]; exact List.mem_cons_self _ _
      exact (List.mem_insertionSort _).mp this
    · intro x hx
      have hx2 : x ∈ (rot_candidates cyc b).insertionSort (· ≤ ·) :=
        (List.mem_insertionSort _).mpr hx
      rw [hs] at hx2
      rcases List.mem_cons.mp hx2 with h1 | h1
      · exact le_of_eq h1.symm
      · rw [hs] at hsorted
        exact List.rel_of_sorted_cons hsorted x h1

/-- Rotating the cycle permutes the candidate keys: both lists have the
same members. -/
lemma mem_rot_candidates_rotate (cyc : List Int) (b : Bool) (h : cyc ≠ []) (k : Nat) :
    ∀ x, x ∈ rot_candidates (cyc.rotate k) b ↔ x ∈ rot_candidates cyc b := by
  intro x
  have hL : 0 < cyc.length := List.length_pos.mpr h
  have hrk : cyc.rotate k ≠ [] := by
    intro hnil
    have := congrArg List.length hnil
    rw [List.length_rotate, List.length_nil] at this
    exact h (List.length_eq_zero.mp this)
  constructor
  · intro hx
    rw [mem_rot_candidates_iff] at hx
    obtain ⟨s, _, rfl⟩ := hx
    rw [List.rotate_rotate]
    exact cyc_key_rotate_mem cyc b h (k + s)
  · intro hx
    rw [mem_rot_candidates_iff] at hx
    obtain ⟨s, _, rfl⟩ := hx
    have hqr := Nat.div_add_mod k cyc.length
    have hr : k % cyc.length < cyc.length := Nat.mod_lt _ hL
    have harr : k + (cyc.length - k % cyc.length + s)
        = s + (k / cyc.length + 1) * cyc.length := by
      have h1 : cyc.length - k % cyc.length + k % cyc.length = cyc.length :=
        Nat.sub_add_cancel (le_of_lt hr)
      calc k + (cyc.length - k % cyc.length + s)
          = (cyc.length * (k / cyc.length) + k % cyc.length)
              + (cyc.length - k % cyc.length + s) := by rw [hqr]
        _ = cyc.length * (k / cyc.length)
              + (cyc.length - k % cyc.length + k % cyc.length) + s := by omega
        _ = cyc.length * (k / cyc.length) + cyc.length + s := by rw [h1]
        _ = s + (k / cyc.length + 1) * cyc.length := by ring
    have key : (cyc.rotate k).rotate (cyc.length - k % cyc.length + s) = cyc.rotate s := by
      rw [List.rotate_rotate, harr]
      calc cyc.rotate (s + (k / cyc.length + 1) * cyc.length)
          = cyc.rotate ((s + (k / cyc.length + 1) * cyc.length) % cyc.length) :=
            (List.rotate_mod _ _).symm
        _ = cyc.rotate (s % cyc.length) := by rw [Nat.add_mul_mod_self_right]
        _ = cyc.rotate s := List.rotate_mod _ _
    rw [← key]
    exact cyc_key_rotate_mem (cyc.rotate k) b hrk _

/-- Rotation invariance of the fingerprint. -/
lemma canonical_cycle_rotate (cyc : List Int) (b : Bool) (k : Nat) :
    canonical_cycle (cyc.rotate k) b = canonical_cycle cyc b := by
  rcases eq_or_ne cyc [] with rfl | h
  · rw [List.rotate_nil]
  · have hrk : cyc.rotate k ≠ [] := by
      intro hnil
      have := congrArg List.length hnil
      rw [List.length_rotate] at this
      exact h (List.length_eq_zero.mp this)
    obtain ⟨hmem1, hle1⟩ := canonical_cycle_spec (cyc.rotate k) b hrk
    obtain ⟨hmem2, hle2⟩ := canonical_cycle_spec cyc b h
    have hiff := mem_rot_candidates_rotate cyc b h k
    exact le_antisymm (hle1 _ ((hiff _).mpr hmem2)) (hle2 _ ((hiff _).mp hmem1))

/-- Without absolute collapse the fingerprint is itself a rotation of the
cycle. -/
lemma isRotated_canonical_cycle_false (c : List Int) (h : c ≠ []) :
    c.IsRotated (canonical_cycle c false) := by
  obtain ⟨hmem, -⟩ := canonical_cycle_spec c false h
  rw [mem_rot_candidates_iff] at hmem
  obtain ⟨s, _, heq⟩ := hmem
  rw [cyc_key_false] at heq
  exact ⟨s, heq.symm⟩

/-- Raw (`by_abs = False`) fingerprint equality forces rotation
equivalence. -/
lemma canonical_cycle_false_inj (c1 c2 : List Int)
    (h : canonical_cycle c1 false = canonical_cycle c2 false) : c1.IsRotated c2 := by
  have hnil : ∀ c : List Int, c ≠ [] → canonical_cycle c false ≠ [] := by
    intro c hc hcan
    obtain ⟨n, hn⟩ := isRotated_canonical_cycle_false c hc
    rw [hcan] at hn
    have := congrArg List.length hn
    rw [List.length_rotate] at this
    exact hc (List.length_eq_zero.mp this)
  rcases eq_or_ne c1 [] with rfl | h1
  · rcases eq_or_ne c2 [] with rfl | h2
    · exact List.IsRotated.refl []
    · exact absurd h.symm (hnil c2 h2)
  · rcases eq_or_ne c2 [] with rfl | h2
    · exact absurd h (hnil c1 h1)
    · have r1 := isRotated_canonical_cycle_false c1 h1
      have r2 := isRotated_canonical_cycle_false c2 h2
      rw [h] at r1
      exact r1.trans r2.symm

/-- With absolute collapse the fingerprint of a cycle is the raw
fingerprint of its element-wise absolute values. -/
lemma canonical_cycle_true_eq_abs (c : List Int) :
    canonical_cycle c true = canonical_cycle (c.map (fun x => |x|)) false := by
  have hc : rot_candidates c true = rot_candidates (c.map (fun x => |x|)) false := by
    simp [rot_candidates, cyc_key, List.map_append, List.map_drop, List.map_take]
  simp only [canonical_cycle, hc, List.length_map]

/-! ### The walk loop: invariants of the classifier -/

lemma getLastD_append_right (l1 l2 : List Int) (h : l2 ≠ []) (d : Int) :
    (l1 ++ l2).getLastD d = l2.getLastD d := by
  rw [List.getLastD_eq_getLast?, List.getLastD_eq_getLast?, List.getLast?_append]
  cases hl : l2.getLast? with
  | none => exact absurd (List.getLast?_eq_none_iff.mp hl) h
  | some y => rfl

/-- The state-independent part of the walk postcondition: the label is one
of the three, the visited log is duplicate-free and all-odd, and a returned
closed cycle is a nonempty duplicate-free suffix of the log that the step
function closes (last element steps to first), with the label determined
from it by `is_abs1_loop_from_cycle`. -/
def WalkInv (type_tag even_type : String) (odd_sign : Int) (r : WResult) : Prop :=
  (r.lab = "ABS1" ∨ r.lab = "NON-ABS1" ∨ r.lab = "CAP") ∧
  r.seq.Nodup ∧
  (∀ x ∈ r.seq, x % 2 = 1) ∧
  (∀ c, r.cycle = some c →
    c ≠ [] ∧ c.Nodup ∧ c.IsSuffix r.seq ∧
    T_step_accel (c.getLastD 0) even_type odd_sign = c.headD 0 ∧
    r.lab = (if is_abs1_loop_from_cycle c type_tag then "ABS1" else "NON-ABS1"))

lemma workerLoop_zero (n0 : Int) (tag et : String) (os : Int) (we rc fa : Bool)
    (n : Int) (seq : List Int) (h1 : Bool) :
    workerLoop n0 tag et os we rc fa 0 n seq h1
      = ⟨"CAP", none, h1, none, none, none, seq⟩ := rfl

lemma workerLoop_succ (n0 : Int) (tag et : String) (os : Int) (we rc fa : Bool)
    (fuel : Nat) (n : Int) (seq : List Int) (h1 : Bool) :
    workerLoop n0 tag et os we rc fa (fuel+1) n seq h1
      = (if n ∈ seq then closeResult n0 tag we rc fa n seq (if n = 1 then true else h1)
         else workerLoop n0 tag et os we rc fa fuel
           (walk_next n et os) (seq ++ [n]) (if n = 1 then true else h1)) := rfl

lemma workerLoopNG_zero (n0 : Int) (tag et : String) (os : Int) (we rc fa : Bool)
    (n : Int) (seq : List Int) (h1 : Bool) :
    workerLoopNG n0 tag et os we rc fa 0 n seq h1
      = ⟨"CAP", none, h1, none, none, none, seq⟩ := rfl

lemma workerLoopNG_succ (n0 : Int) (tag et : String) (os : Int) (we rc fa : Bool)
    (fuel : Nat) (n : Int) (seq : List Int) (h1 : Bool) :
    workerLoopNG n0 tag et os we rc fa (fuel+1) n seq h1
      = (if n ∈ seq then closeResult n0 tag we rc fa n seq (if n = 1 then true else h1)
         else workerLoopNG n0 tag et os we rc fa fuel
           (T_step_accel n et os) (seq ++ [n]) (if n = 1 then true else h1)) := rfl

lemma closeResult_lab (n0 : Int) (tag : String) (we rc fa : Bool)
    (n : Int) (seq : List Int) (h1 : Bool) :
    (closeResult n0 tag we rc fa n seq h1).lab
      = (if is_abs1_loop_from_cycle (seq.drop (List.indexOf n seq)) tag
         then "ABS1" else "NON-ABS1") := rfl

lemma closeResult_cycle (n0 : Int) (tag : String) (we rc fa : Bool)
    (n : Int) (seq : List Int) (h1 : Bool) :
    (closeResult n0 tag we rc fa n seq h1).cycle
      = some (seq.drop (List.indexOf n seq)) := rfl

lemma closeResult_seq (n0 : Int) (tag : String) (we rc fa : Bool)
    (n : Int) (seq : List Int) (h1 : Bool) :
    (closeResult n0 tag we rc fa n seq h1).seq = seq := rfl

lemma closeResult_hit1 (n0 : Int) (tag : String) (we rc fa : Bool)
    (n : Int) (seq : List Int) (h1 : Bool) :
    (closeResult n0 tag we rc fa n seq h1).hit1 = h1 := rfl

/-- Main loop invariant, by induction on the remaining fuel. -/
lemma workerLoop_post (n0 : Int) (tag et : String) (os : Int) (we rc fa : Bool) :
    ∀ (fuel : Nat) (n : Int) (seq : List Int) (h1 : Bool),
      seq.Nodup →
      (∀ x ∈ seq, x % 2 = 1) →
      n % 2 = 1 →
      (seq = [] ∨ T_step_accel (seq.getLastD 0) et os = n) →
      (1 ∈ seq → h1 = true) →
      WalkInv tag et os (workerLoop n0 tag et os we rc fa fuel n seq h1) ∧
      (workerLoop n0 tag et os we rc fa fuel n seq h1).seq.length ≤ seq.length + fuel ∧
      seq <+: (workerLoop n0 tag et os we rc fa fuel n seq h1).seq ∧
      (workerLoop n0 tag et os we rc fa fuel n seq h1).hit1
        = (h1 || decide (1 ∈ (workerLoop n0 tag et os we rc fa fuel n seq h1).seq)) := by
  intro fuel
  induction fuel with
  | zero =>
    intro n seq h1 hnd hodd hno hchain hh1
    rw [workerLoop_zero]
    refine ⟨⟨Or.inr (Or.inr rfl), hnd, hodd, by intro c hc; cases hc⟩,
      by simp, List.prefix_refl seq, ?_⟩
    by_cases hmem : (1:Int) ∈ seq
    · rw [hh1 hmem]; simp [hmem]
    · simp [hmem]
  | succ fuel ih =>
    intro n seq h1 hnd hodd hno hchain hh1
    rw [workerLoop_succ]
    by_cases hmem : n ∈ seq
    · rw [if_pos hmem]
      have hi : List.indexOf n seq < seq.length := List.indexOf_lt_length.mpr hmem
      have hcne : seq.drop (List.indexOf n seq) ≠ [] := by
        intro hc
        have := congrArg List.length hc
        rw [List.length_drop, List.length_nil] at this
        omega
      have hhead : (seq.drop (List.indexOf n seq)).headD 0 = n := by
        rw [List.drop_eq_getElem_cons hi, List.headD_cons]
        have hg := List.indexOf_get hi
        rw [List.get_eq_getElem] at hg
        exact hg
      have hlast : (seq.drop (List.indexOf n seq)).getLastD 0 = seq.getLastD 0 := by
        conv_rhs => rw [← List.take_append_drop (List.indexOf n seq) seq]
        rw [getLastD_append_right _ _ hcne]
      have hstep : T_step_accel ((seq.drop (List.indexOf n seq)).getLastD 0) et os
          = (seq.drop (List.indexOf n seq)).headD 0 := by
        rcases hchain with hsnil | hchain
        · exact absurd hsnil (List.ne_nil_of_mem hmem)
        · rw [hlast, hhead, hchain]
      refine ⟨⟨?_, ?_, ?_, ?_⟩, ?_, ?_, ?_⟩
      · rw [closeResult_lab]
        split_ifs
        · exact Or.inl rfl
        · exact Or.inr (Or.inl rfl)
      · rw [closeResult_seq]; exact hnd
      · rw [closeResult_seq]; exact hodd
      · intro c hc
        rw [closeResult_cycle] at hc
        injection hc with hc
        subst hc
        refine ⟨hcne, List.Nodup.sublist (List.drop_sublist _ _) hnd,
          ?_, hstep, closeResult_lab n0 tag we rc fa n seq _⟩
        rw [closeResult_seq]
        exact List.drop_suffix _ _
      · rw [closeResult_seq]; omega
      · rw [closeResult_seq]
      · rw [closeResult_hit1, closeResult_seq]
        by_cases hn1 : n = 1
        · subst hn1; simp [hmem]
        · rw [if_neg hn1]
          by_cases h1mem : (1:Int) ∈ seq
          · rw [hh1 h1mem]; simp [h1mem]
          · simp [h1mem]
    · rw [if_neg hmem]
      have hodd2 : ∀ x ∈ seq ++ [n], x % 2 = 1 := by
        intro x hx
        rcases List.mem_append.mp hx with hx | hx
        · exact hodd x hx
        · rw [List.mem_singleton.mp hx]; exact hno
      have hnd2 : (seq ++ [n]).Nodup := by
        rw [List.nodup_append]
        exact ⟨hnd, List.nodup_singleton n, by
          intro x hx hx2
          rw [List.mem_singleton.mp hx2] at hx
          exact hmem hx⟩
      have hno2 : walk_next n et os % 2 = 1 := by
        rw [walk_next_odd_eq n et os hno]
        exact T_step_accel_odd n et os hno
      have hchain2 : seq ++ [n] = [] ∨
          T_step_accel ((seq ++ [n]).getLastD 0) et os = walk_next n et os := by
        right
        rw [List.getLastD_concat, walk_next_odd_eq n et os hno]
      have hh12 : (1:Int) ∈ seq ++ [n] → (if n = 1 then true else h1) = true := by
        intro hx
        by_cases hn1 : n = 1
        · rw [if_pos hn1]
        · rw [if_neg hn1]
          rcases List.mem_append.mp hx with hx | hx
          · exact hh1 hx
          · exact absurd (List.mem_singleton.mp hx).symm hn1
      obtain ⟨hinv, hlen, hpre, hhit⟩ :=
        ih (walk_next n et os) (seq ++ [n]) (if n = 1 then true else h1)
          hnd2 hodd2 hno2 hchain2 hh12
      refine ⟨hinv, ?_, ?_, ?_⟩
      · rw [List.length_append, List.length_singleton] at hlen; omega
      · exact (List.prefix_append seq [n]).trans hpre
      · by_cases hn1 : n = 1
        · subst hn1
          rw [if_pos rfl] at hhit hpre ⊢
          have h1r : (1:Int) ∈ (workerLoop n0 tag et os we rc fa fuel
              (walk_next 1 et os) (seq ++ [1]) true).seq :=
            hpre.subset (by simp)
          rw [hhit]
          simp [h1r]
        · rw [if_neg hn1] at hhit ⊢
          exact hhit

/-- Postcondition of a full `worker` call. -/
lemma worker_post (n0 : Int) (tag et : String) (os : Int) (cap : Nat)
    (we rc fa : Bool) :
    WalkInv tag et os (worker n0 tag et os cap we rc fa) ∧
    (worker n0 tag et os cap we rc fa).seq.length ≤ cap ∧
    (worker n0 tag et os cap we rc fa).hit1
      = decide ((1:Int) ∈ (worker n0 tag et os cap we rc fa).seq) := by
  obtain ⟨hinv, hlen, _, hhit⟩ :=
    workerLoop_post n0 tag et os we rc fa cap (normalize_initial n0 et) [] false
      List.nodup_nil (by intro x hx; cases hx) (normalize_initial_odd n0 et)
      (Or.inl rfl) (by intro hx; cases hx)
  rw [worker]
  refine ⟨hinv, by simpa using hlen, by simpa using hhit⟩

/-- On odd inputs the guarded and the guard-free loops coincide: the
defensive even-value branch is never taken. -/
lemma workerLoop_eq_NG (n0 : Int) (tag et : String) (os : Int) (we rc fa : Bool) :
    ∀ (fuel : Nat) (n : Int) (seq : List Int) (h1 : Bool), n % 2 = 1 →
      workerLoop n0 tag et os we rc fa fuel n seq h1
        = workerLoopNG n0 tag et os we rc fa fuel n seq h1 := by
  intro fuel
  induction fuel with
  | zero => intro n seq h1 _; rfl
  | succ fuel ih =>
    intro n seq h1 hno
    rw [workerLoop_succ, workerLoopNG_succ]
    by_cases hmem : n ∈ seq
    · rw [if_pos hmem, if_pos hmem]
    · rw [if_neg hmem, if_neg hmem, walk_next_odd_eq n et os hno]
      exact ih _ _ _ (T_step_accel_odd n et os hno)

lemma worker_eq_NG (n0 : Int) (tag et : String) (os : Int) (cap : Nat)
    (we rc fa : Bool) :
    worker n0 tag et os cap we rc fa = workerNG n0 tag et os cap we rc fa := by
  rw [worker, workerNG]
  exact workerLoop_eq_NG n0 tag et os we rc fa cap _ [] false
    (normalize_initial_odd n0 et)

/-! ### Registry: association-list dictionary lemmas -/

lemma lookup_append_new (reg : List (List Int × CycleInfo)) (f : List Int)
    (i : CycleInfo) (h : reg.lookup f = none) :
    (reg ++ [(f, i)]).lookup f = some i := by
  induction reg with
  | nil => simp [List.lookup]
  | cons p t ih =>
    obtain ⟨a, b⟩ := p
    cases hfa : (f == a) with
    | true => simp [List.lookup, hfa] at h
    | false =>
      simp only [List.lookup, hfa] at h
      simp only [List.cons_append, List.lookup, hfa]
      exact ih h

lemma lookup_map_update (reg : List (List Int × CycleInfo)) (f : List Int)
    (ni info : CycleInfo) (h : reg.lookup f = some info) :
    (reg.map (fun p => if p.1 = f then (f, ni) else p)).lookup f = some ni := by
  induction reg with
  | nil => simp [List.lookup] at h
  | cons p t ih =>
    obtain ⟨a, b⟩ := p
    by_cases hfa : a = f
    · subst hfa
      simp only [List.map_cons, if_pos rfl]
      simp [List.lookup]
    · have hba : (f == a) = false := beq_eq_false_iff_ne.mpr (Ne.symm hfa)
      simp only [List.lookup, hba] at h
      simp only [List.map_cons, if_neg hfa]
      simp only [List.lookup, hba]
      exact ih h

lemma lookup_mem (reg : List (List Int × CycleInfo)) (f : List Int)
    (info : CycleInfo) (h : reg.lookup f = some info) :
    ∃ k, (k, info) ∈ reg := by
  induction reg with
  | nil => simp [List.lookup] at h
  | cons p t ih =>
    obtain ⟨a, b⟩ := p
    cases hfa : (f == a) with
    | true =>
      simp only [List.lookup, hfa] at h
      injection h with h
      exact ⟨a, by rw [h]; exact List.mem_cons_self _ _⟩
    | false =>
      simp only [List.lookup, hfa] at h
      obtain ⟨k, hk⟩ := ih h
      exact ⟨k, List.mem_cons_of_mem _ hk⟩

/-! ### Claim theorems -/

/-- C1: for every configuration tag and a closed single-element cycle on
`+1` or `-1`, the classifier labels the trajectory ABS1 exactly when the
signed fixed point is domain-stable: `B+1`/`B-1` accept both signs, `W+1`
only `+1`, `W-1` only `-1`; otherwise the label is NON-ABS1 (the worker's
label on a closed cycle is governed by `is_abs1_loop_from_cycle`). -/
theorem attractor_gating_abs1 :
    ∀ (v : Int) (type_tag : String), v = 1 ∨ v = -1 →
      (is_abs1_loop_from_cycle [v] type_tag
          = is_a1_stable_domain type_tag (if v = 1 then 1 else -1))
      ∧ (is_a1_stable_domain "B+1" v = true
         ∧ is_a1_stable_domain "B-1" v = true
         ∧ is_a1_stable_domain "W+1" v = (if v = 1 then true else false)
         ∧ is_a1_stable_domain "W-1" v = (if v = -1 then true else false))
      ∧ (∀ (n0 : Int) (et : String) (os : Int) (cap : Nat) (we rc fa : Bool)
           (c : List Int),
           (worker n0 type_tag et os cap we rc fa).cycle = some c →
           (worker n0 type_tag et os cap we rc fa).lab
             = (if is_abs1_loop_from_cycle c type_tag then "ABS1" else "NON-ABS1")) := by
  intro v type_tag hv
  refine ⟨?_, ?_, ?_⟩
  · rcases hv with rfl | rfl <;> rfl
  · rcases hv with rfl | rfl <;> exact ⟨by decide, by decide, by decide, by decide⟩
  · intro n0 et os cap we rc fa c hc
    exact ((worker_post n0 type_tag et os cap we rc fa).1.2.2.2 c hc).2.2.2.2

/-- Witness for C1 at `v = 1`, tag `W+1`, start `1`, cap `50`. -/
theorem attractor_gating_abs1_witness :
    (is_abs1_loop_from_cycle [1] "W+1"
        = is_a1_stable_domain "W+1" (if (1:Int) = 1 then 1 else -1))
    ∧ (worker 1 "W+1" "W" 1 50 false false false).lab
        = (if is_abs1_loop_from_cycle [1] "W+1" then "ABS1" else "NON-ABS1") :=
  ⟨(attractor_gating_abs1 1 "W+1" (Or.inl rfl)).1,
   (attractor_gating_abs1 1 "W+1" (Or.inl rfl)).2.2 1 "W" 1 50 false false false
     [1] (by decide)⟩

/-- C2 (counterexample): with absolute collapse, the structurally distinct
cycles `[1,-2,3]` and `[1,2,-3]` — not rotations of one another, and not
rotations of one another after element-wise negation — share the
fingerprint `(1,2,3)`. -/
theorem fingerprint_uniqueness_counterexample :
    canonical_cycle [1, -2, 3] true = canonical_cycle [1, 2, -3] true
    ∧ ¬ ([1, -2, 3] : List Int).IsRotated [1, 2, -3]
    ∧ ¬ ([1, -2, 3] : List Int).IsRotated ([1, 2, -3].map (fun x => -x)) := by
  refine ⟨by decide, ?_, ?_⟩
  · rw [List.isRotated_iff_mem_map_range]
    decide
  · rw [List.isRotated_iff_mem_map_range]
    decide

/-- C2 (amended): without absolute collapse two cycles share a fingerprint
exactly when they are rotations of one another; every rotation of a cycle
yields the same fingerprint under either flag; and with absolute collapse
two cycles share a fingerprint exactly when their element-wise absolute
values are rotations of one another (which sign-negated rotations are a
special case of, but not the only case). -/
theorem fingerprint_uniqueness_amended :
    (∀ c1 c2 : List Int,
        canonical_cycle c1 false = canonical_cycle c2 false ↔ c1.IsRotated c2)
    ∧ (∀ (cyc : List Int) (by_abs : Bool) (k : Nat),
        canonical_cycle (cyc.rotate k) by_abs = canonical_cycle cyc by_abs)
    ∧ (∀ c1 c2 : List Int,
        canonical_cycle c1 true = canonical_cycle c2 true
          ↔ (c1.map (fun x => |x|)).IsRotated (c2.map (fun x => |x|))) := by
  refine ⟨?_, ?_, ?_⟩
  · intro c1 c2
    constructor
    · exact canonical_cycle_false_inj c1 c2
    · rintro ⟨n, rfl⟩
      exact (canonical_cycle_rotate c1 false n).symm
  · exact canonical_cycle_rotate
  · intro c1 c2
    rw [canonical_cycle_true_eq_abs c1, canonical_cycle_true_eq_abs c2]
    constructor
    · exact canonical_cycle_false_inj _ _
    · rintro ⟨n, hn⟩
      rw [← hn, canonical_cycle_rotate]

/-- C3: the accelerated step maps odd values to odd values for every
configuration; consequently every value in the classifier's visited log is
odd and the defensive even-value re-normalization inside the walk is
unreachable (the guarded and the guard-free walks coincide). -/
theorem accel_step_odd_guard_unreachable :
    (∀ (n : Int) (even_type : String) (odd_sign : Int), n % 2 = 1 →
        T_step_accel n even_type odd_sign % 2 = 1)
    ∧ (∀ (n0 : Int) (type_tag even_type : String) (odd_sign : Int) (cap : Nat)
         (we rc fa : Bool),
        (∀ x ∈ (worker n0 type_tag even_type odd_sign cap we rc fa).seq, x % 2 = 1)
        ∧ worker n0 type_tag even_type odd_sign cap we rc fa
            = workerNG n0 type_tag even_type odd_sign cap we rc fa) := by
  refine ⟨T_step_accel_odd, ?_⟩
  intro n0 tag et os cap we rc fa
  exact ⟨(worker_post n0 tag et os cap we rc fa).1.2.2.1,
    worker_eq_NG n0 tag et os cap we rc fa⟩

/-- Witness for C3 at the odd value `3`, configuration Wall/`+1`. -/
theorem accel_step_odd_guard_unreachable_witness :
    T_step_accel 3 "W" 1 % 2 = 1 :=
  accel_step_odd_guard_unreachable.1 3 "W" 1 (by decide)

/-- C4: a closed cycle returned by the classifier is a nonempty suffix of
the visited log (the log from the repeated value's earlier occurrence on,
its second occurrence excluded), has pairwise distinct elements, and the
step function maps its last element to its first. -/
theorem closed_cycle_shape :
    ∀ (n0 : Int) (type_tag even_type : String) (odd_sign : Int) (cap : Nat)
      (we rc fa : Bool) (c : List Int),
      (worker n0 type_tag even_type odd_sign cap we rc fa).cycle = some c →
      c ≠ [] ∧ c.Nodup
      ∧ c.IsSuffix (worker n0 type_tag even_type odd_sign cap we rc fa).seq
      ∧ T_step_accel (c.getLastD 0) even_type odd_sign = c.headD 0 := by
  intro n0 tag et os cap we rc fa c hc
  obtain ⟨h1, h2, h3, h4, -⟩ := (worker_post n0 tag et os cap we rc fa).1.2.2.2 c hc
  exact ⟨h1, h2, h3, h4⟩

/-- Witness for C4: the cycle `[1]` returned for start `1` under `B+1`. -/
theorem closed_cycle_shape_witness :
    ([1] : List Int) ≠ [] ∧ ([1] : List Int).Nodup
    ∧ ([1] : List Int).IsSuffix (worker 1 "B+1" "B" 1 50 false false false).seq
    ∧ T_step_accel (([1] : List Int).getLastD 0) "B" 1 = ([1] : List Int).headD 0 :=
  closed_cycle_shape 1 "B+1" "B" 1 50 false false false [1] (by decide)

/-- C5: the classifier is total: for every start, configuration and cap it
returns one of the labels ABS1, NON-ABS1, CAP, its visited log holds
pairwise distinct values, and the log length (= the number of step
applications performed, one per recorded value) is at most `cap`. -/
theorem classifier_total_bounded :
    ∀ (n0 : Int) (type_tag even_type : String) (odd_sign : Int) (cap : Nat)
      (we rc fa : Bool),
      ((worker n0 type_tag even_type odd_sign cap we rc fa).lab = "ABS1"
        ∨ (worker n0 type_tag even_type odd_sign cap we rc fa).lab = "NON-ABS1"
        ∨ (worker n0 type_tag even_type odd_sign cap we rc fa).lab = "CAP")
      ∧ (worker n0 type_tag even_type odd_sign cap we rc fa).seq.Nodup
      ∧ (worker n0 type_tag even_type odd_sign cap we rc fa).seq.length ≤ cap := by
  intro n0 tag et os cap we rc fa
  obtain ⟨⟨hlab, hnd, -, -⟩, hlen, -⟩ := worker_post n0 tag et os cap we rc fa
  exact ⟨hlab, hnd, hlen⟩

/-- C6: the fingerprint is invariant under every rotation of the cycle,
for either value of the absolute-collapse flag. -/
theorem canonical_rotation_invariance :
    ∀ (cyc : List Int) (k : Nat) (by_abs : Bool),
      canonical_cycle (cyc.rotate k) by_abs = canonical_cycle cyc by_abs :=
  fun cyc k b => canonical_cycle_rotate cyc b k

/-- C7: with absolute collapse, a cycle and its element-wise sign negation
have the same fingerprint. -/
theorem canonical_mirror_invariance :
    ∀ cyc : List Int,
      canonical_cycle cyc true = canonical_cycle (cyc.map (fun x => -x)) true := by
  intro c
  rw [canonical_cycle_true_eq_abs c, canonical_cycle_true_eq_abs (c.map (fun x => -x))]
  have habs : (c.map (fun x => -x)).map (fun x => |x|) = c.map (fun x => |x|) := by
    rw [List.map_map]
    simp only [Function.comp_def, abs_neg]
  rw [habs]

/-- C8 (counterexample): in the parallel sweep branch the starter passed to
the registry is `ex[0] if ex else None`; with example retention off a
genuine unknown-cycle discovery (start `-5`, cycle `[-5,-7]` under `W+1`)
creates a registry entry whose sample list stays empty although it holds
fewer than `MAX_SAMPLES_PER_CYCLE` entries — the discovering starting value
is not appended. -/
theorem registry_update_counterexample :
    (worker (-5) "W+1" "W" 1 10 false true false).lab = "NON-ABS1"
    ∧ (worker (-5) "W+1" "W" 1 10 false true false).ex = none
    ∧ (worker (-5) "W+1" "W" 1 10 false true false).fp = some [-7, -5]
    ∧ (worker (-5) "W+1" "W" 1 10 false true false).ucyc = some [-5, -7]
    ∧ registry_update_par true []
        (worker (-5) "W+1" "W" 1 10 false true false).ex
        (worker (-5) "W+1" "W" 1 10 false true false).fp
        (worker (-5) "W+1" "W" 1 10 false true false).ucyc
      = [([-7, -5], ⟨1, 2, [], [-5, -7]⟩)]
    ∧ 0 < MAX_SAMPLES_PER_CYCLE := by decide

/-- C8 (amended): on every discovery the registry increments the entry's
count (creating it with count 1 on the first); the starting value is
appended exactly when a starter value is supplied to the update and the
sample list is below capacity (in the parallel sweep branch the starter is
absent whenever no example record is present); the sample list never
exceeds `MAX_SAMPLES_PER_CYCLE`. -/
theorem registry_update_amended :
    ∀ (registry : List (List Int × CycleInfo)) (f c : List Int)
      (starter : Option Int),
      (registry.lookup f = none →
        (add_unknown_cycle registry (some f) starter (some c)).lookup f
          = some ⟨1, c.length,
              (match starter with | some s => [s] | none => []), c⟩)
      ∧ (∀ info, registry.lookup f = some info →
          (add_unknown_cycle registry (some f) starter (some c)).lookup f
            = some ⟨info.count + 1, info.len,
                (match starter with
                 | some s =>
                     if info.samples.length < MAX_SAMPLES_PER_CYCLE
                     then info.samples ++ [s] else info.samples
                 | none => info.samples), info.cycle⟩)
      ∧ ((∀ p ∈ registry, p.2.samples.length ≤ MAX_SAMPLES_PER_CYCLE) →
          ∀ p ∈ add_unknown_cycle registry (some f) starter (some c),
            p.2.samples.length ≤ MAX_SAMPLES_PER_CYCLE) := by
  intro reg f c st
  refine ⟨?_, ?_, ?_⟩
  · intro h
    simp only [add_unknown_cycle, h]
    exact lookup_append_new reg f _ h
  · intro info h
    simp only [add_unknown_cycle, h]
    exact lookup_map_update reg f _ info h
  · intro hb p hp
    simp only [add_unknown_cycle] at hp
    cases hlk : reg.lookup f with
    | none =>
      rw [hlk] at hp
      rcases List.mem_append.mp hp with hp | hp
      · exact hb p hp
      · rw [List.mem_singleton] at hp
        subst hp
        cases st <;> simp [MAX_SAMPLES_PER_CYCLE]
    | some info =>
      rw [hlk] at hp
      rw [List.mem_map] at hp
      obtain ⟨q, hq, hpe⟩ := hp
      obtain ⟨k, hk⟩ := lookup_mem reg f info hlk
      have hinfo : info.samples.length ≤ MAX_SAMPLES_PER_CYCLE := hb (k, info) hk
      by_cases hqf : q.1 = f
      · rw [if_pos hqf] at hpe
        subst hpe
        cases st with
        | none => simpa using hinfo
        | some s =>
          by_cases hroom : info.samples.length < MAX_SAMPLES_PER_CYCLE
          · simp only [if_pos hroom, List.length_append, List.length_singleton]
            omega
          · simp only [if_neg hroom]
            exact hinfo
      · rw [if_neg hqf] at hpe
        subst hpe
        exact hb q hq

/-- Witness for C8: first discovery of fingerprint `[9,3]` with starter
`7` creates the entry with count 1 and sample list `[7]`. -/
theorem registry_update_amended_witness :
    (add_unknown_cycle [] (some [9, 3]) (some 7) (some [9, 3])).lookup [9, 3]
      = some ⟨1, 2, [7], [9, 3]⟩ :=
  (registry_update_amended [] [9, 3] [9, 3] (some 7)).1 rfl

/-- C9: under Bridge/`+1` with cap 50, start `1` normalizes to `1`, closes
on the cycle `[1]`, is labeled ABS1 with hit-1 true; start `0` normalizes
to `1` by the odd-zero convention and gives the identical result. -/
theorem scenario_bridge_plus_one :
    normalize_initial 1 "B" = 1
    ∧ normalize_initial 0 "B" = 1
    ∧ (worker 1 "B+1" "B" 1 50 false false false).lab = "ABS1"
    ∧ (worker 1 "B+1" "B" 1 50 false false false).cycle = some [1]
    ∧ (worker 1 "B+1" "B" 1 50 false false false).hit1 = true
    ∧ worker 0 "B+1" "B" 1 50 false false false
        = worker 1 "B+1" "B" 1 50 false false false := by decide

/-- C10: the hit-1 flag is true exactly when `1` occurs in the visited log
(the values inspected at the tops of the loop iterations); when the cap is
reached the value produced by the final step application is not inspected:
from start `5` under `B+1` with cap `1` the walk records only `[5]`, the
cap-th step produces `1`, and the result is CAP with hit-1 false. -/
theorem hit1_iff_visited :
    (∀ (n0 : Int) (type_tag even_type : String) (odd_sign : Int) (cap : Nat)
       (we rc fa : Bool),
       (worker n0 type_tag even_type odd_sign cap we rc fa).hit1 = true
         ↔ (1:Int) ∈ (worker n0 type_tag even_type odd_sign cap we rc fa).seq)
    ∧ ((worker 5 "B+1" "B" 1 1 false false false).lab = "CAP"
       ∧ (worker 5 "B+1" "B" 1 1 false false false).hit1 = false
       ∧ (worker 5 "B+1" "B" 1 1 false false false).seq = [5]
       ∧ T_step_accel 5 "B" 1 = 1) := by
  constructor
  · intro n0 tag et os cap we rc fa
    rw [(worker_post n0 tag et os cap we rc fa).2.2]
    exact ⟨of_decide_eq_true, fun hp => decide_eq_true hp⟩
  · decide

end CollatzO
